import Mathlib

/-!
Verification development for the memory/task core of a bare-metal kernel
(`rust-os`): bump allocator (`src/allocator/bump.rs`), heap constants
(`src/allocator.rs`), boot-info frame allocator and address translation
(`src/memory.rs`), simple executor (`src/task/simple_executor.rs`), and the
keyboard scancode bridge (`src/task/keyboard.rs`).

Machine integers (`usize`/`u64`) are modelled as `Nat`; where the Rust code
performs wrapping/checked 64-bit arithmetic the width is made explicit via
`2 ^ 64`.
-/

namespace RustOS

/-! ## Bump allocator (`src/allocator/bump.rs`, constants from `src/allocator.rs`) -/

/-- `HEAP_START` constant from `src/allocator.rs`: `0x_4444_4444_0000`. -/
def HEAP_START : Nat := 0x444444440000

/-- `HEAP_SIZE` constant from `src/allocator.rs`: `100 * 1024`. -/
def HEAP_SIZE : Nat := 100 * 1024

/-- `align_up` from `src/allocator.rs`: `(addr + align - 1) & !(align - 1)`.
On 64-bit `usize`, for `align` a power of two the complement `!(align - 1)`
is the mask `2 ^ 64 - align`; the bitwise and with a value `< 2 ^ 64` also
captures the wrap-around of the 64-bit addition. -/
def align_up (addr align : Nat) : Nat := (addr + align - 1) &&& (2 ^ 64 - align)

/-- State of `BumpAllocator` (`src/allocator/bump.rs`). -/
structure BumpAllocator where
  heap_start : Nat
  heap_end : Nat
  next : Nat
  allocations : Nat
deriving DecidableEq

/-- `BumpAllocator::new`. -/
def BumpAllocator.new : BumpAllocator :=
  { heap_start := 0, heap_end := 0, next := 0, allocations := 0 }

/-- `BumpAllocator::init`. -/
def BumpAllocator.init (s : BumpAllocator) (hs size : Nat) : BumpAllocator :=
  { s with heap_start := hs, heap_end := hs + size, next := hs }

/-- `GlobalAlloc::alloc` for `Locked<BumpAllocator>`: returns the allocated
address (or `none` for a null result) together with the new state.  The
`checked_add` of the source is the explicit `< 2 ^ 64` test. -/
def BumpAllocator.alloc (s : BumpAllocator) (size align : Nat) :
    Option Nat × BumpAllocator :=
  let alloc_start := align_up s.next align
  if alloc_start + size < 2 ^ 64 then
    let alloc_end := alloc_start + size
    if alloc_end > s.heap_end then
      (none, s)
    else
      (some alloc_start,
        { s with next := alloc_end, allocations := s.allocations + 1 })
  else
    (none, s)

/-- `GlobalAlloc::dealloc` for `Locked<BumpAllocator>`: `allocations -= 1`
underflows (panics) when no allocation is live, modelled by `none`. -/
def BumpAllocator.dealloc (s : BumpAllocator) : Option BumpAllocator :=
  if s.allocations = 0 then
    none
  else
    let a := s.allocations - 1
    some { s with allocations := a,
                  next := if a = 0 then s.heap_start else s.next }

/-- A call into the global allocator. -/
inductive AllocOp where
  | alloc (size align : Nat)
  | dealloc
deriving DecidableEq

/-- Run a sequence of allocator calls; `none` when a `dealloc` underflows
(deallocations outnumbering live allocations). A failed `alloc` returns null
and leaves the state unchanged, so the run continues. -/
def execOps (s : BumpAllocator) : List AllocOp → Option BumpAllocator
  | [] => some s
  | AllocOp.alloc size align :: rest => execOps (s.alloc size align).2 rest
  | AllocOp.dealloc :: rest =>
    match s.dealloc with
    | some s' => execOps s' rest
    | none => none

/-- The alignment of every `alloc` call is a power of two representable in
`usize` (the `Layout` contract of the source). -/
def alignPow2 : AllocOp → Prop
  | AllocOp.alloc _ align => ∃ k, k ≤ 63 ∧ align = 2 ^ k
  | AllocOp.dealloc => True

instance : DecidablePred alignPow2 := by
  intro op
  cases op with
  | alloc size align =>
    exact decidable_of_iff (∃ k ≤ 63, align = 2 ^ k) Iff.rfl
  | dealloc => exact inferInstanceAs (Decidable True)

/-! ### Characterisation of `align_up` on powers of two -/

theorem land_mask_eq (x k : Nat) (hk : k ≤ 64) (hx : x < 2 ^ 64) :
    x &&& (2 ^ 64 - 2 ^ k) = x / 2 ^ k * 2 ^ k := by
  have hmask : 2 ^ 64 - 2 ^ k = 2 ^ k * (2 ^ (64 - k) - 1) := by
    rw [Nat.mul_sub, Nat.mul_one, ← Nat.pow_add]
    congr 2
    omega
  have hdiv : x / 2 ^ k * 2 ^ k = 2 ^ k * (x >>> k) := by
    rw [Nat.shiftRight_eq_div_pow, Nat.mul_comm]
  apply Nat.eq_of_testBit_eq
  intro i
  rw [Nat.testBit_and, hmask, hdiv, Nat.testBit_mul_pow_two,
    Nat.testBit_mul_pow_two, Nat.testBit_shiftRight,
    Nat.testBit_two_pow_sub_one]
  by_cases h64 : i < 64
  · by_cases hik : k ≤ i
    · have hki : k + (i - k) = i := by omega
      have h2 : i - k < 64 - k := by omega
      simp [hik, hki, h2]
    · simp [hik]
  · have hbit : x.testBit i = false := by
      apply Nat.testBit_lt_two_pow
      calc x < 2 ^ 64 := hx
        _ ≤ 2 ^ i := Nat.pow_le_pow_right (by norm_num) (by omega)
    simp [hbit]
    intro hik
    have hki : k + (i - k) = i := by omega
    rw [hki, hbit]

theorem align_up_pow2 (addr k : Nat) (hk : k ≤ 64)
    (h : addr + 2 ^ k - 1 < 2 ^ 64) :
    align_up addr (2 ^ k) = (addr + 2 ^ k - 1) / 2 ^ k * 2 ^ k :=
  land_mask_eq _ _ hk h

theorem align_up_ge (addr k : Nat) (hk : k ≤ 64)
    (h : addr + 2 ^ k - 1 < 2 ^ 64) :
    addr ≤ align_up addr (2 ^ k) := by
  rw [align_up_pow2 addr k hk h]
  have hpos : 0 < 2 ^ k := Nat.pos_pow_of_pos k (by norm_num)
  have hdm := Nat.div_add_mod (addr + 2 ^ k - 1) (2 ^ k)
  have hmlt : (addr + 2 ^ k - 1) % 2 ^ k < 2 ^ k := Nat.mod_lt _ hpos
  have hcomm : (addr + 2 ^ k - 1) / 2 ^ k * 2 ^ k
      = 2 ^ k * ((addr + 2 ^ k - 1) / 2 ^ k) := Nat.mul_comm _ _
  omega

theorem align_up_of_dvd (addr k : Nat) (hdvd : 2 ^ k ∣ addr) (hk : k ≤ 64)
    (h : addr + 2 ^ k - 1 < 2 ^ 64) :
    align_up addr (2 ^ k) = addr := by
  rw [align_up_pow2 addr k hk h]
  obtain ⟨m, rfl⟩ := hdvd
  have hpos : 0 < 2 ^ k := Nat.pos_pow_of_pos k (by norm_num)
  have h1 : 2 ^ k * m + 2 ^ k - 1 = 2 ^ k * m + (2 ^ k - 1) := by omega
  rw [h1, Nat.mul_add_div hpos, Nat.div_eq_of_lt (by omega), Nat.add_zero,
    Nat.mul_comm]

/-! ### Reachable-state invariant of the bump allocator -/

/-- States of the bump allocator as initialised by `init_heap`
(`ALLOCATOR.lock().init(HEAP_START, HEAP_SIZE)`). -/
def GoodState (s : BumpAllocator) : Prop :=
  s.heap_start = HEAP_START ∧ s.heap_end = HEAP_START + HEAP_SIZE ∧
    HEAP_START ≤ s.next ∧ s.next ≤ s.heap_end

theorem heap_no_overflow : HEAP_START + HEAP_SIZE + 2 ^ 63 - 1 < 2 ^ 64 := by
  norm_num [HEAP_START, HEAP_SIZE]

theorem goodState_init :
    GoodState (BumpAllocator.new.init HEAP_START HEAP_SIZE) := by
  refine ⟨rfl, rfl, Nat.le_refl _, ?_⟩
  show HEAP_START ≤ HEAP_START + HEAP_SIZE
  omega

theorem goodState_alloc (s : BumpAllocator) (size align : Nat)
    (hg : GoodState s) (hpow : ∃ k, k ≤ 63 ∧ align = 2 ^ k) :
    GoodState (s.alloc size align).2 := by
  obtain ⟨hs, he, hlo, hhi⟩ := hg
  obtain ⟨k, hk, rfl⟩ := hpow
  have hklt : (2 : Nat) ^ k ≤ 2 ^ 63 := Nat.pow_le_pow_right (by norm_num) hk
  have hnov : s.next + 2 ^ k - 1 < 2 ^ 64 := by
    have := heap_no_overflow
    have h2 : (0 : Nat) < 2 ^ k := Nat.pos_pow_of_pos k (by norm_num)
    omega
  have hge : s.next ≤ align_up s.next (2 ^ k) :=
    align_up_ge s.next k (by omega) hnov
  unfold BumpAllocator.alloc
  dsimp only
  by_cases hov : align_up s.next (2 ^ k) + size < 2 ^ 64
  · rw [if_pos hov]
    by_cases hend : align_up s.next (2 ^ k) + size > s.heap_end
    · rw [if_pos hend]
      exact ⟨hs, he, hlo, hhi⟩
    · rw [if_neg hend]
      refine ⟨hs, he, ?_, ?_⟩ <;> dsimp only <;> omega
  · rw [if_neg hov]
    exact ⟨hs, he, hlo, hhi⟩

theorem goodState_dealloc (s s' : BumpAllocator) (hg : GoodState s)
    (hde : s.dealloc = some s') : GoodState s' := by
  obtain ⟨hs, he, hlo, hhi⟩ := hg
  unfold BumpAllocator.dealloc at hde
  by_cases h0 : s.allocations = 0
  · rw [if_pos h0] at hde
    exact absurd hde (by simp)
  · rw [if_neg h0] at hde
    dsimp only at hde
    cases hde
    constructor
    · exact hs
    constructor
    · exact he
    by_cases hz : s.allocations - 1 = 0 <;> simp [hz] <;> omega

theorem goodState_execOps (ops : List AllocOp) (s s' : BumpAllocator)
    (hg : GoodState s) (hpow : ∀ op ∈ ops, alignPow2 op)
    (hrun : execOps s ops = some s') : GoodState s' := by
  induction ops generalizing s with
  | nil =>
    unfold execOps at hrun
    cases hrun
    exact hg
  | cons op rest ih =>
    cases op with
    | alloc size align =>
      unfold execOps at hrun
      have hal : alignPow2 (AllocOp.alloc size align) := hpow _ (by simp)
      have hal' : ∃ k, k ≤ 63 ∧ align = 2 ^ k := hal
      exact ih (s.alloc size align).2 (goodState_alloc s size align hg hal')
        (fun o ho => hpow o (by simp [ho])) hrun
    | dealloc =>
      unfold execOps at hrun
      cases hd : s.dealloc with
      | none => rw [hd] at hrun; cases hrun
      | some s₁ =>
        rw [hd] at hrun
        exact ih s₁ (goodState_dealloc s s₁ hg hd)
          (fun o ho => hpow o (by simp [ho])) hrun

/-- C5: for every sequence of allocate/deallocate calls on the initialised
bump allocator in which deallocations never outnumber live allocations
(the run does not underflow), the invariant
`heap_start ≤ next ≤ heap_end` holds after every call. -/
theorem bump_invariant_holds (ops : List AllocOp) (s : BumpAllocator)
    (hpow : ∀ op ∈ ops, alignPow2 op)
    (hrun : execOps (BumpAllocator.new.init HEAP_START HEAP_SIZE) ops = some s) :
    s.heap_start ≤ s.next ∧ s.next ≤ s.heap_end := by
  obtain ⟨hs, he, hlo, hhi⟩ := goodState_execOps ops _ s goodState_init hpow hrun
  exact ⟨hs ▸ hlo, hhi⟩

/-- Witness for C5 at the concrete run `[alloc 8 8, dealloc]`. -/
theorem bump_invariant_holds_witness :
    (⟨HEAP_START, HEAP_START + HEAP_SIZE, HEAP_START, 0⟩ : BumpAllocator).heap_start
        ≤ (⟨HEAP_START, HEAP_START + HEAP_SIZE, HEAP_START, 0⟩ : BumpAllocator).next ∧
      (⟨HEAP_START, HEAP_START + HEAP_SIZE, HEAP_START, 0⟩ : BumpAllocator).next
        ≤ (⟨HEAP_START, HEAP_START + HEAP_SIZE, HEAP_START, 0⟩ : BumpAllocator).heap_end :=
  bump_invariant_holds [AllocOp.alloc 8 8, AllocOp.dealloc]
    ⟨HEAP_START, HEAP_START + HEAP_SIZE, HEAP_START, 0⟩
    (by decide) (by decide)

theorem two_pow_dvd_HEAP_START (k : Nat) (hk : k ≤ 16) : 2 ^ k ∣ HEAP_START := by
  refine dvd_trans (pow_dvd_pow 2 hk) ⟨0x44444444, ?_⟩
  norm_num [HEAP_START]

/-- C4: on any run of allocate/deallocate calls from the initialised
allocator, once a `dealloc` call brings `allocations` back to `0`, the next
`alloc` call — for any size and power-of-two alignment that fits within the
heap — returns the address `HEAP_START` (full reclamation). -/
theorem bump_full_reclamation (ops : List AllocOp) (s s' : BumpAllocator)
    (size align k : Nat)
    (hpow : ∀ op ∈ ops, alignPow2 op)
    (hrun : execOps (BumpAllocator.new.init HEAP_START HEAP_SIZE) ops = some s)
    (hlive : s.allocations = 1)
    (hde : s.dealloc = some s')
    (halign : align = 2 ^ k) (hfit : align ≤ HEAP_SIZE)
    (hsize : size ≤ HEAP_SIZE) :
    (s'.alloc size align).1 = some HEAP_START := by
  obtain ⟨hs, he, hlo, hhi⟩ := goodState_execOps ops _ s goodState_init hpow hrun
  subst halign
  have hk16 : k ≤ 16 := by
    by_contra hgt
    have : (2 : Nat) ^ 17 ≤ 2 ^ k := Nat.pow_le_pow_right (by norm_num) (by omega)
    have : (102400 : Nat) < 2 ^ 17 := by norm_num
    simp [HEAP_SIZE] at hfit
    omega
  -- the dealloc brings the count to zero and resets the cursor
  have hde' : s' = ⟨s.heap_start, s.heap_end, s.heap_start, 0⟩ := by
    simp [BumpAllocator.dealloc, hlive] at hde
    exact hde.symm
  subst hde'
  -- now `alloc` on the reset state
  unfold BumpAllocator.alloc
  dsimp only
  rw [hs, he]
  have hdvd : align_up HEAP_START (2 ^ k) = HEAP_START := by
    refine align_up_of_dvd HEAP_START k (two_pow_dvd_HEAP_START k hk16) (by omega) ?_
    have hkle : (2 : Nat) ^ k ≤ 2 ^ 63 := Nat.pow_le_pow_right (by norm_num) (by omega)
    have := heap_no_overflow
    have h2 : (0 : Nat) < 2 ^ k := Nat.pos_pow_of_pos k (by norm_num)
    omega
  rw [hdvd]
  have hov : HEAP_START + size < 2 ^ 64 := by
    have := heap_no_overflow
    omega
  rw [if_pos hov, if_neg (by omega)]

/-- Witness for C4: run `[alloc 8 8]`, then the matching `dealloc`, then an
aligned 100-byte allocation lands back at `HEAP_START`. -/
theorem bump_full_reclamation_witness :
    ((⟨HEAP_START, HEAP_START + HEAP_SIZE, HEAP_START, 0⟩ : BumpAllocator).alloc
        100 16).1 = some HEAP_START :=
  bump_full_reclamation [AllocOp.alloc 8 8]
    ⟨HEAP_START, HEAP_START + HEAP_SIZE, HEAP_START + 8, 1⟩
    ⟨HEAP_START, HEAP_START + HEAP_SIZE, HEAP_START, 0⟩
    100 16 4 (by decide) (by decide) (by decide) (by decide) (by decide)
    (by decide) (by decide)

/-- C6: an `alloc` request whose aligned start plus size overflows the
64-bit address space or exceeds `heap_end` returns null and leaves the whole
allocator state unchanged. -/
theorem bump_alloc_fail_unchanged (s : BumpAllocator) (size align : Nat)
    (h : 2 ^ 64 ≤ align_up s.next align + size ∨
      s.heap_end < align_up s.next align + size) :
    s.alloc size align = (none, s) := by
  unfold BumpAllocator.alloc
  dsimp only
  rcases h with h | h
  · rw [if_neg (by omega)]
  · by_cases hov : align_up s.next align + size < 2 ^ 64
    · rw [if_pos hov, if_pos (by omega)]
    · rw [if_neg hov]

/-- Witness for C6: allocating 1 byte from an empty zero-sized heap fails
and leaves the state unchanged. -/
theorem bump_alloc_fail_unchanged_witness :
    (⟨0, 0, 0, 0⟩ : BumpAllocator).alloc 1 1 = (none, ⟨0, 0, 0, 0⟩) :=
  bump_alloc_fail_unchanged ⟨0, 0, 0, 0⟩ 1 1 (Or.inr (by decide))

/-! ## Keyboard scancode bridge (`src/task/keyboard.rs`)

The global state is `SCANCODE_QUEUE : OnceCell<ArrayQueue<u8>>` (modelled as
`Option (List Nat)`, `none` while uninitialised, front of the list = oldest
element) and `WAKER : AtomicWaker` (modelled as a `Bool` recording whether a
waker is currently registered). `ArrayQueue::new(100)` fixes the capacity at
construction; the capacity is kept as a parameter `cap` and instantiated
with 100 where the source fixes it. -/

/-- Capacity passed to `ArrayQueue::new` in `ScancodeStream::new`. -/
def SCANCODE_QUEUE_CAPACITY : Nat := 100

/-- Global state of `keyboard.rs`: the `SCANCODE_QUEUE` cell and the
`WAKER` registration slot. -/
structure KState where
  queue : Option (List Nat)
  waker : Bool
deriving DecidableEq

/-- `ArrayQueue::push`: appends at the back unless the queue is full. -/
def queuePush (cap : Nat) (q : List Nat) (b : Nat) : Option (List Nat) :=
  if q.length < cap then some (q ++ [b]) else none

/-- Diagnostics printed by `add_scancode`. -/
inductive Diag where
  | queueFull
  | queueUninitialized
deriving DecidableEq

/-- `add_scancode` (the producer entry point, called from the keyboard
interrupt handler). Returns the new state, whether `WAKER.wake()` was
invoked, and the diagnostic emitted, if any. `WAKER.wake()` takes (clears)
the registered waker and wakes it. -/
def add_scancode (cap : Nat) (s : KState) (b : Nat) : KState × Bool × Option Diag :=
  match s.queue with
  | none => (s, false, some Diag.queueUninitialized)
  | some q =>
    match queuePush cap q b with
    | some q' => ({ queue := some q', waker := false }, true, none)
    | none => (s, false, some Diag.queueFull)

/-- Producer state updates only (ignoring outputs), folded over a byte
sequence. -/
def pushAll (cap : Nat) (s : KState) (bs : List Nat) : KState :=
  bs.foldl (fun st b => (add_scancode cap st b).1) s

/-- Result of one `poll_next` call. -/
inductive PollResult where
  | ready (b : Nat)
  | pending
deriving DecidableEq

/-- `ScancodeStream::poll_next`.  `race` is the list of producer
`add_scancode` calls interleaved between the first (fast-path) pop and the
`WAKER.register` call — the race window the double-check closes.  `none`
models the `expect("scancode queue not initialized")` panic. -/
def poll_next (cap : Nat) (s : KState) (race : List Nat) :
    Option (PollResult × KState) :=
  match s.queue with
  | none => none
  | some q =>
    match q with
    | b :: rest =>
      -- fast path: `queue.pop()` succeeded, return immediately
      some (PollResult.ready b, { s with queue := some rest })
    | [] =>
      -- the producer may run in the race window ...
      let s1 := pushAll cap s race
      -- ... then `WAKER.register(&cx.waker())` ...
      let s2 : KState := { queue := s1.queue, waker := true }
      -- ... then the second `queue.pop()`
      match s2.queue with
      | some (b :: rest) =>
        -- `WAKER.take()` then `Poll::Ready`
        some (PollResult.ready b, { queue := some rest, waker := false })
      | some [] => some (PollResult.pending, s2)
      | none => none

/-- `ScancodeStream::new`: `try_init_once` initialises the queue with
capacity 100; if the cell is already initialised, `expect` panics (`none`). -/
def ScancodeStream.new (s : KState) : Option KState :=
  match s.queue with
  | some _ => none
  | none => some { queue := some [], waker := s.waker }

/-- The consumer loop: keep calling `poll_next` (with no interleaved
producer) while it reports `ready`, collecting the delivered bytes. -/
def drainPoll (cap : Nat) : Nat → KState → List Nat
  | 0, _ => []
  | fuel + 1, s =>
    match poll_next cap s [] with
    | some (PollResult.ready b, s') => b :: drainPoll cap fuel s'
    | _ => []

/-- Pushing `bs` into an initialised queue holding `q` keeps the oldest
elements: exactly the first `cap - q.length` new bytes are appended, the
rest are dropped (newest first to go). -/
theorem pushAll_content (cap : Nat) (bs : List Nat) : ∀ q w,
    (pushAll cap ⟨some q, w⟩ bs).queue
      = some (q ++ List.take (cap - q.length) bs) := by
  induction bs with
  | nil => intro q w; simp [pushAll]
  | cons b bs ih =>
    intro q w
    show (pushAll cap (add_scancode cap ⟨some q, w⟩ b).1 bs).queue = _
    by_cases hlen : q.length < cap
    · have hstep : (add_scancode cap ⟨some q, w⟩ b).1
          = ⟨some (q ++ [b]), false⟩ := by
        simp [add_scancode, queuePush, hlen]
      rw [hstep, ih (q ++ [b]) false]
      have hn : cap - q.length = (cap - (q ++ [b]).length) + 1 := by
        simp
        omega
      rw [hn, List.take_succ_cons, List.append_assoc]
      rfl
    · have hstep : (add_scancode cap ⟨some q, w⟩ b).1 = ⟨some q, w⟩ := by
        simp [add_scancode, queuePush, hlen]
      rw [hstep, ih q w]
      have hn : cap - q.length = 0 := by omega
      rw [hn]
      rfl

/-- C1: when `poll_next` finds the queue empty on its fast-path pop, it
registers the waker and pops a second time: any byte a racing producer
pushed between the first check and the registration is returned as `Ready`
on that same poll with the registration cleared (`WAKER.take`), and
`Pending` (with the registration left in place) is returned only when the
second pop also finds the queue empty. -/
theorem poll_next_double_check (cap : Nat) (w : Bool) (b : Nat) :
    (0 < cap →
      poll_next cap ⟨some [], w⟩ [b]
        = some (PollResult.ready b, ⟨some [], false⟩)) ∧
    (∀ race b' q', (pushAll cap ⟨some [], w⟩ race).queue = some (b' :: q') →
      poll_next cap ⟨some [], w⟩ race
        = some (PollResult.ready b', ⟨some q', false⟩)) ∧
    (∀ race s', poll_next cap ⟨some [], w⟩ race = some (PollResult.pending, s') →
      s'.queue = some [] ∧ s'.waker = true) ∧
    (poll_next cap ⟨some [], w⟩ []
      = some (PollResult.pending, ⟨some [], true⟩)) := by
  have hunf : ∀ race, poll_next cap ⟨some [], w⟩ race
      = match (pushAll cap ⟨some [], w⟩ race).queue with
        | some (b :: rest) => some (PollResult.ready b, ⟨some rest, false⟩)
        | some [] => some (PollResult.pending,
            ⟨(pushAll cap ⟨some [], w⟩ race).queue, true⟩)
        | none => none := fun _ => rfl
  refine ⟨?_, ?_, ?_, ?_⟩
  · intro hcap
    have h1 : (pushAll cap ⟨some [], w⟩ [b]).queue = some [b] := by
      have h2 := pushAll_content cap [b] [] w
      rw [List.take_of_length_le (by simpa using hcap)] at h2
      simpa using h2
    rw [hunf, h1]
  · intro race b' q' hq
    rw [hunf, hq]
  · intro race s'
    have hc := pushAll_content cap race [] w
    simp only [List.nil_append, List.length_nil, Nat.sub_zero] at hc
    rw [hunf, hc]
    cases htake : List.take cap race with
    | nil =>
      intro h
      rw [Option.some_inj, Prod.mk.injEq] at h
      rw [← h.2]
      exact ⟨rfl, rfl⟩
    | cons x xs =>
      intro h
      cases h
  · rfl

/-- Witness for C1 at capacity 100 with racing byte 42. -/
theorem poll_next_double_check_witness :
    poll_next 100 ⟨some [], true⟩ [42]
      = some (PollResult.ready 42, ⟨some [], false⟩) :=
  (poll_next_double_check 100 true 42).1 (by decide)

/-- Draining an initialised queue through `poll_next` yields exactly its
contents, oldest first. -/
theorem drainPoll_eq (cap : Nat) (q : List Nat) : ∀ fuel w,
    q.length ≤ fuel → drainPoll cap fuel ⟨some q, w⟩ = q := by
  induction q with
  | nil =>
    intro fuel w _
    cases fuel with
    | zero => rfl
    | succ f => rfl
  | cons b rest ih =>
    intro fuel w hlen
    cases fuel with
    | zero => simp at hlen
    | succ f =>
      show (match poll_next cap ⟨some (b :: rest), w⟩ [] with
        | some (PollResult.ready b, s') => b :: drainPoll cap f s'
        | _ => []) = b :: rest
      have hfast : poll_next cap ⟨some (b :: rest), w⟩ []
          = some (PollResult.ready b, ⟨some rest, w⟩) := rfl
      rw [hfast]
      exact congrArg (b :: ·) (ih f w (by simp at hlen; omega))

/-- C2: pushing any byte sequence through `add_scancode` into the freshly
initialised (empty) queue and then draining through `poll_next` delivers
exactly the first `cap` bytes — the accepted prefix — in push order: excess
newest bytes are dropped, and delivered bytes are never duplicated or
reordered. -/
theorem scancode_fifo_delivery (cap : Nat) (bs : List Nat) (w : Bool) :
    drainPoll cap cap (pushAll cap ⟨some [], w⟩ bs) = List.take cap bs := by
  have hc := pushAll_content cap bs [] w
  simp only [List.nil_append, List.length_nil, Nat.sub_zero] at hc
  cases hs : pushAll cap ⟨some [], w⟩ bs with
  | mk qo wk =>
    rw [hs] at hc
    dsimp only at hc
    subst hc
    exact drainPoll_eq cap (List.take cap bs) cap wk
      (by simp [List.length_take])

/-- C3: `add_scancode` drops the byte and emits a diagnostic when the queue
is uninitialised, drops the newest byte and emits a diagnostic when the
queue is full, appends the byte otherwise, and invokes `WAKER.wake()`
exactly when the push succeeds. -/
theorem add_scancode_spec (cap : Nat) (s : KState) (b : Nat) :
    (s.queue = none →
      add_scancode cap s b = (s, false, some Diag.queueUninitialized)) ∧
    (∀ q, s.queue = some q → ¬ q.length < cap →
      add_scancode cap s b = (s, false, some Diag.queueFull)) ∧
    (∀ q, s.queue = some q → q.length < cap →
      add_scancode cap s b = (⟨some (q ++ [b]), false⟩, true, none)) ∧
    ((add_scancode cap s b).2.1 = true ↔
      ∃ q, s.queue = some q ∧ q.length < cap) := by
  cases s with
  | mk qo wk =>
    cases qo with
    | none =>
      refine ⟨fun _ => rfl, ?_, ?_, ?_⟩
      · intro q hq; cases hq
      · intro q hq; cases hq
      · constructor
        · intro h; cases h
        · rintro ⟨q, hq, _⟩; cases hq
    | some q =>
      by_cases hlen : q.length < cap
      · refine ⟨?_, ?_, ?_, ?_⟩
        · intro h; cases h
        · intro q' hq' hl
          cases hq'
          exact absurd hlen hl
        · intro q' hq' _
          cases hq'
          simp [add_scancode, queuePush, hlen]
        · constructor
          · intro _; exact ⟨q, rfl, hlen⟩
          · intro _; simp [add_scancode, queuePush, hlen]
      · refine ⟨?_, ?_, ?_, ?_⟩
        · intro h; cases h
        · intro q' hq' _
          cases hq'
          simp [add_scancode, queuePush, hlen]
        · intro q' hq' hl
          cases hq'
          exact absurd hl hlen
        · constructor
          · intro h
            simp [add_scancode, queuePush, hlen] at h
          · rintro ⟨q', hq', hl⟩
            cases hq'
            exact absurd hl hlen

/-- Witness for C3: all three producer outcomes at concrete states. -/
theorem add_scancode_spec_witness :
    add_scancode 2 ⟨none, false⟩ 7
        = (⟨none, false⟩, false, some Diag.queueUninitialized) ∧
      add_scancode 1 ⟨some [5], true⟩ 7
        = (⟨some [5], true⟩, false, some Diag.queueFull) ∧
      add_scancode 2 ⟨some [5], true⟩ 7 = (⟨some [5, 7], false⟩, true, none) :=
  ⟨(add_scancode_spec 2 ⟨none, false⟩ 7).1 rfl,
    (add_scancode_spec 1 ⟨some [5], true⟩ 7).2.1 [5] rfl (by decide),
    (add_scancode_spec 2 ⟨some [5], true⟩ 7).2.2.1 [5] rfl (by decide)⟩

/-- The operations that touch the scancode queue after construction:
producer pushes and consumer polls (each poll with its interleaved producer
race window). -/
inductive KEvent where
  | push (b : Nat)
  | poll (race : List Nat)

/-- State update of one event. A panicking poll (only possible on an
uninitialised queue) leaves the state unchanged. -/
def stepEvent (cap : Nat) (s : KState) : KEvent → KState
  | KEvent.push b => (add_scancode cap s b).1
  | KEvent.poll race =>
    match poll_next cap s race with
    | some (_, s') => s'
    | none => s

theorem add_scancode_isSome (cap : Nat) (s : KState) (b : Nat) :
    ((add_scancode cap s b).1.queue).isSome = s.queue.isSome := by
  cases s with
  | mk qo wk =>
    cases qo with
    | none => rfl
    | some q =>
      by_cases hlen : q.length < cap <;> simp [add_scancode, queuePush, hlen]

theorem pushAll_isSome (cap : Nat) (race : List Nat) : ∀ s : KState,
    ((pushAll cap s race).queue).isSome = s.queue.isSome := by
  induction race with
  | nil => intro s; rfl
  | cons b bs ih =>
    intro s
    show ((pushAll cap (add_scancode cap s b).1 bs).queue).isSome = _
    rw [ih, add_scancode_isSome]

/-- On an initialised queue, `poll_next` never reaches its panic branch and
its result state is initialised again. -/
theorem poll_next_no_panic (cap : Nat) (s : KState) (race : List Nat) (q : List Nat)
    (hq : s.queue = some q) :
    ∃ r s', poll_next cap s race = some (r, s') ∧ s'.queue.isSome = true := by
  cases s with
  | mk qo wk =>
    cases hq
    cases q with
    | cons b rest => exact ⟨PollResult.ready b, ⟨some rest, wk⟩, rfl, rfl⟩
    | nil =>
      have hsome := pushAll_isSome cap race ⟨some [], wk⟩
      have hunf : poll_next cap ⟨some [], wk⟩ race
          = match (pushAll cap ⟨some [], wk⟩ race).queue with
            | some (b :: rest) => some (PollResult.ready b, ⟨some rest, false⟩)
            | some [] => some (PollResult.pending,
                ⟨(pushAll cap ⟨some [], wk⟩ race).queue, true⟩)
            | none => none := rfl
      cases hps : (pushAll cap ⟨some [], wk⟩ race).queue with
      | none => rw [hps] at hsome; simp at hsome
      | some t =>
        cases t with
        | nil =>
          refine ⟨PollResult.pending, ⟨(pushAll cap ⟨some [], wk⟩ race).queue, true⟩, ?_, ?_⟩
          · rw [hunf, hps]
          · simp [hps]
        | cons b rest =>
          refine ⟨PollResult.ready b, ⟨some rest, false⟩, ?_, rfl⟩
          rw [hunf, hps]

theorem stepEvent_isSome (cap : Nat) (s : KState) (e : KEvent)
    (hs : s.queue.isSome = true) : ((stepEvent cap s e).queue).isSome = true := by
  cases e with
  | push b => rw [stepEvent, add_scancode_isSome]; exact hs
  | poll race =>
    obtain ⟨q, hq⟩ := Option.isSome_iff_exists.mp hs
    obtain ⟨r, s', hpoll, hs'⟩ := poll_next_no_panic cap s race q hq
    rw [stepEvent, hpoll]
    exact hs'

theorem foldl_stepEvent_isSome (cap : Nat) (evs : List KEvent) : ∀ s : KState,
    s.queue.isSome = true →
      ((evs.foldl (stepEvent cap) s).queue).isSome = true := by
  induction evs with
  | nil => intro s hs; exact hs
  | cons e rest ih =>
    intro s hs
    exact ih (stepEvent cap s e) (stepEvent_isSome cap s e hs)

/-- C10: once `ScancodeStream::new` has succeeded, the queue stays
initialised across every later producer push and consumer poll, so
`poll_next`'s `"scancode queue not initialized"` panic branch is
unreachable; and a second `ScancodeStream::new` itself panics instead of
reinitialising. -/
theorem scancode_stream_no_panic (s s₁ : KState) (evs : List KEvent)
    (race : List Nat) (hnew : ScancodeStream.new s = some s₁) :
    ((evs.foldl (stepEvent SCANCODE_QUEUE_CAPACITY) s₁).queue).isSome = true ∧
      poll_next SCANCODE_QUEUE_CAPACITY
        (evs.foldl (stepEvent SCANCODE_QUEUE_CAPACITY) s₁) race ≠ none ∧
      ScancodeStream.new s₁ = none := by
  cases s with
  | mk qo wk =>
    cases qo with
    | some q => cases hnew
    | none =>
      have hs₁ : s₁ = ⟨some [], wk⟩ := by
        cases hnew
        rfl
      subst hs₁
      have hfold := foldl_stepEvent_isSome SCANCODE_QUEUE_CAPACITY evs ⟨some [], wk⟩ rfl
      refine ⟨hfold, ?_, rfl⟩
      obtain ⟨t, ht⟩ := Option.isSome_iff_exists.mp hfold
      obtain ⟨r, s', hpoll, _⟩ :=
        poll_next_no_panic SCANCODE_QUEUE_CAPACITY _ race t ht
      rw [hpoll]
      exact Option.some_ne_none _

/-- Witness for C10: construct the stream, push a byte, poll twice. -/
theorem scancode_stream_no_panic_witness :
    ((([KEvent.push 30, KEvent.poll [], KEvent.poll []].foldl
          (stepEvent SCANCODE_QUEUE_CAPACITY) ⟨some [], false⟩).queue).isSome = true ∧
      poll_next SCANCODE_QUEUE_CAPACITY
        ([KEvent.push 30, KEvent.poll [], KEvent.poll []].foldl
          (stepEvent SCANCODE_QUEUE_CAPACITY) ⟨some [], false⟩) [] ≠ none ∧
      ScancodeStream.new ⟨some [], false⟩ = none) :=
  scancode_stream_no_panic ⟨none, false⟩ ⟨some [], false⟩
    [KEvent.push 30, KEvent.poll [], KEvent.poll []] [] rfl

/-! ## Boot-info frame allocator (`src/memory.rs`) -/

/-- Region kind from the bootloader memory map; the code only distinguishes
`Usable`. -/
inductive MemoryRegionType where
  | usable
  | other
deriving DecidableEq

/-- One entry of the bootloader `MemoryMap`. -/
structure MemoryRegion where
  start_addr : Nat
  end_addr : Nat
  region_type : MemoryRegionType
deriving DecidableEq

/-- The addresses visited by `(start_addr..end_addr).step_by(4096)`. -/
def stepAddrs (r : MemoryRegion) : List Nat :=
  (List.range ((r.end_addr - r.start_addr + 4095) / 4096)).map
    (fun i => r.start_addr + 4096 * i)

/-- `PhysFrame::containing_address`: the 4 KiB frame holding `addr`,
identified by its start address. -/
def containing_address (addr : Nat) : Nat := addr - addr % 4096

/-- `BootInfoFrameAllocator::usable_frames`: filter the regions marked
usable, flatten their 4096-stepped address ranges, and take the containing
frame of each address. -/
def usable_frames (mmap : List MemoryRegion) : List Nat :=
  ((mmap.filter
      (fun r => r.region_type = MemoryRegionType.usable)).flatMap stepAddrs).map
    containing_address

/-- `BootInfoFrameAllocator` state. -/
structure BootInfoFrameAllocator where
  memory_map : List MemoryRegion
  next : Nat
deriving DecidableEq

/-- `BootInfoFrameAllocator::init`. -/
def BootInfoFrameAllocator.init (mmap : List MemoryRegion) :
    BootInfoFrameAllocator :=
  { memory_map := mmap, next := 0 }

/-- `FrameAllocator::allocate_frame`: `usable_frames().nth(next)` and
increment the cursor (also after an exhausted call). -/
def allocate_frame (s : BootInfoFrameAllocator) :
    Option Nat × BootInfoFrameAllocator :=
  ((usable_frames s.memory_map)[s.next]?,
    { s with next := s.next + 1 })

/-- Result of the `(k+1)`-th `allocate_frame` call starting from `s`. -/
def nthCall (s : BootInfoFrameAllocator) : Nat → Option Nat
  | 0 => (allocate_frame s).1
  | k + 1 => nthCall (allocate_frame s).2 k

theorem nthCall_eq (mmap : List MemoryRegion) (k : Nat) : ∀ n,
    nthCall ⟨mmap, n⟩ k = (usable_frames mmap)[n + k]? := by
  induction k with
  | zero => intro n; rfl
  | succ k ih =>
    intro n
    show nthCall ⟨mmap, n + 1⟩ k = _
    rw [ih (n + 1)]
    congr 1
    omega

/-- C7: over any sequence of `allocate_frame` calls on an allocator built
from a memory map whose derived usable-frame sequence has no duplicates
(disjoint usable regions), no two successful calls return the same frame,
and every call after an exhausted call is also exhausted. -/
theorem frame_allocator_spec (mmap : List MemoryRegion) (i j fi fj : Nat)
    (hnd : (usable_frames mmap).Nodup) :
    (i ≠ j → nthCall (BootInfoFrameAllocator.init mmap) i = some fi →
      nthCall (BootInfoFrameAllocator.init mmap) j = some fj → fi ≠ fj) ∧
    (i ≤ j → nthCall (BootInfoFrameAllocator.init mmap) i = none →
      nthCall (BootInfoFrameAllocator.init mmap) j = none) := by
  have hi := nthCall_eq mmap i 0
  have hj := nthCall_eq mmap j 0
  simp only [Nat.zero_add] at hi hj
  constructor
  · intro hne hci hcj heq
    subst heq
    rw [BootInfoFrameAllocator.init, hi] at hci
    rw [BootInfoFrameAllocator.init, hj] at hcj
    have hlen : i < (usable_frames mmap).length := by
      by_contra hge
      rw [List.getElem?_eq_none (by omega)] at hci
      cases hci
    exact hne (List.getElem?_inj hlen hnd (by rw [hci, hcj]))
  · intro hle hci
    rw [BootInfoFrameAllocator.init, hi] at hci
    rw [BootInfoFrameAllocator.init, hj]
    rw [List.getElem?_eq_none_iff] at hci
    exact List.getElem?_eq_none (by omega)

/-- Witness for C7 on a concrete three-region memory map (usable frames
`[0, 4096, 12288]`): the first two calls return distinct frames, and the
call after the exhausted fourth call is exhausted too. -/
theorem frame_allocator_spec_witness :
    (0 : Nat) ≠ 4096 ∧
      nthCall (BootInfoFrameAllocator.init
        [⟨0, 8192, MemoryRegionType.usable⟩,
          ⟨8192, 12288, MemoryRegionType.other⟩,
          ⟨12288, 16384, MemoryRegionType.usable⟩]) 4 = none :=
  ⟨(frame_allocator_spec
      [⟨0, 8192, MemoryRegionType.usable⟩,
        ⟨8192, 12288, MemoryRegionType.other⟩,
        ⟨12288, 16384, MemoryRegionType.usable⟩] 0 1 0 4096 (by decide)).1
      (by decide) (by decide) (by decide),
    (frame_allocator_spec
      [⟨0, 8192, MemoryRegionType.usable⟩,
        ⟨8192, 12288, MemoryRegionType.other⟩,
        ⟨12288, 16384, MemoryRegionType.usable⟩] 3 4 0 0 (by decide)).2
      (by decide) (by decide)⟩

/-! ## Address translation (`translate_addr_inner` in `src/memory.rs`) -/

/-- Outcome of `PageTableEntry::frame()` for one entry. -/
inductive EntryFrame where
  | frame (f : Nat)
  | frameNotPresent
  | hugeFrame
deriving DecidableEq

/-- Observable outcome of `translate_addr_inner`: `Some(phys)`, `None`, or
the `panic!("huge pages not supported")`. -/
inductive TranslateResult where
  | physAddr (pa : Nat)
  | notMapped
  | panicHugePage
deriving DecidableEq

/-- `VirtAddr::p4_index`: bits 39..47 of the address. -/
def p4_index (addr : Nat) : Nat := addr >>> 39 % 512

/-- `VirtAddr::p3_index`: bits 30..38. -/
def p3_index (addr : Nat) : Nat := addr >>> 30 % 512

/-- `VirtAddr::p2_index`: bits 21..29. -/
def p2_index (addr : Nat) : Nat := addr >>> 21 % 512

/-- `VirtAddr::p1_index`: bits 12..20. -/
def p1_index (addr : Nat) : Nat := addr >>> 12 % 512

/-- `VirtAddr::page_offset`: the low 12 bits. -/
def page_offset (addr : Nat) : Nat := addr % 4096

/-- Result of the traversal loop in `translate_addr_inner`. -/
inductive WalkResult where
  | frame (f : Nat)
  | notMapped
  | panicHugePage
deriving DecidableEq

/-- The `for &index in &table_indexes` loop: at each level, read the entry
of the current table and follow it.  `entryAt f i` models `table[i].frame()`
for the page table stored in physical frame `f` (the source reads that
table through the physical-memory linear offset). -/
def walkTables (entryAt : Nat → Nat → EntryFrame) (frame : Nat) :
    List Nat → WalkResult
  | [] => WalkResult.frame frame
  | idx :: rest =>
    match entryAt frame idx with
    | EntryFrame.frame f => walkTables entryAt f rest
    | EntryFrame.frameNotPresent => WalkResult.notMapped
    | EntryFrame.hugeFrame => WalkResult.panicHugePage

/-- `translate_addr_inner`: walk the four levels `[p4, p3, p2, p1]` from the
CR3 frame and add the page offset to the final frame's start address. -/
def translate_addr_inner (entryAt : Nat → Nat → EntryFrame) (cr3 addr : Nat) :
    TranslateResult :=
  match walkTables entryAt cr3
      [p4_index addr, p3_index addr, p2_index addr, p1_index addr] with
  | WalkResult.frame f => TranslateResult.physAddr (f + page_offset addr)
  | WalkResult.notMapped => TranslateResult.notMapped
  | WalkResult.panicHugePage => TranslateResult.panicHugePage

/-- C8: the translation walks exactly the four levels `p4, p3, p2, p1`: an
empty entry at any level yields `notMapped`, a huge-page entry at any level
is fatal (panic, not a soft `notMapped`), and when all four levels hold
frames the result is the final frame's start address plus the page-offset
bits. -/
theorem translate_addr_four_levels (entryAt : Nat → Nat → EntryFrame)
    (cr3 addr f1 f2 f3 f4 : Nat) :
    (entryAt cr3 (p4_index addr) = EntryFrame.frame f1 →
      entryAt f1 (p3_index addr) = EntryFrame.frame f2 →
      entryAt f2 (p2_index addr) = EntryFrame.frame f3 →
      entryAt f3 (p1_index addr) = EntryFrame.frame f4 →
      translate_addr_inner entryAt cr3 addr
        = TranslateResult.physAddr (f4 + page_offset addr)) ∧
    (entryAt cr3 (p4_index addr) = EntryFrame.frameNotPresent →
      translate_addr_inner entryAt cr3 addr = TranslateResult.notMapped) ∧
    (entryAt cr3 (p4_index addr) = EntryFrame.frame f1 →
      entryAt f1 (p3_index addr) = EntryFrame.frameNotPresent →
      translate_addr_inner entryAt cr3 addr = TranslateResult.notMapped) ∧
    (entryAt cr3 (p4_index addr) = EntryFrame.frame f1 →
      entryAt f1 (p3_index addr) = EntryFrame.frame f2 →
      entryAt f2 (p2_index addr) = EntryFrame.frameNotPresent →
      translate_addr_inner entryAt cr3 addr = TranslateResult.notMapped) ∧
    (entryAt cr3 (p4_index addr) = EntryFrame.frame f1 →
      entryAt f1 (p3_index addr) = EntryFrame.frame f2 →
      entryAt f2 (p2_index addr) = EntryFrame.frame f3 →
      entryAt f3 (p1_index addr) = EntryFrame.frameNotPresent →
      translate_addr_inner entryAt cr3 addr = TranslateResult.notMapped) ∧
    (entryAt cr3 (p4_index addr) = EntryFrame.hugeFrame →
      translate_addr_inner entryAt cr3 addr = TranslateResult.panicHugePage) ∧
    (entryAt cr3 (p4_index addr) = EntryFrame.frame f1 →
      entryAt f1 (p3_index addr) = EntryFrame.hugeFrame →
      translate_addr_inner entryAt cr3 addr = TranslateResult.panicHugePage) ∧
    (entryAt cr3 (p4_index addr) = EntryFrame.frame f1 →
      entryAt f1 (p3_index addr) = EntryFrame.frame f2 →
      entryAt f2 (p2_index addr) = EntryFrame.hugeFrame →
      translate_addr_inner entryAt cr3 addr = TranslateResult.panicHugePage) ∧
    (entryAt cr3 (p4_index addr) = EntryFrame.frame f1 →
      entryAt f1 (p3_index addr) = EntryFrame.frame f2 →
      entryAt f2 (p2_index addr) = EntryFrame.frame f3 →
      entryAt f3 (p1_index addr) = EntryFrame.hugeFrame →
      translate_addr_inner entryAt cr3 addr = TranslateResult.panicHugePage) := by
  refine ⟨?_, ?_, ?_, ?_, ?_, ?_, ?_, ?_, ?_⟩ <;>
    intros <;>
    simp_all [translate_addr_inner, walkTables]

/-- Witness for C8: a fully mapped path (each table points to the next
frame) and a huge-page path (panic on the first level). -/
theorem translate_addr_four_levels_witness :
    translate_addr_inner (fun f _ => EntryFrame.frame (f + 1)) 0 4101
        = TranslateResult.physAddr (4 + page_offset 4101) ∧
      translate_addr_inner (fun _ _ => EntryFrame.hugeFrame) 0 4101
        = TranslateResult.panicHugePage :=
  ⟨(translate_addr_four_levels (fun f _ => EntryFrame.frame (f + 1))
      0 4101 1 2 3 4).1 rfl rfl rfl rfl,
    (translate_addr_four_levels (fun _ _ => EntryFrame.hugeFrame)
      0 4101 0 0 0 0).2.2.2.2.2.1 rfl⟩

/-! ## Simple executor (`src/task/simple_executor.rs`) -/

/-- Abstract task: an identifier plus the number of times its `poll` will
still report `Pending` before returning `Ready` (the future's private
state). -/
structure STask where
  id : Nat
  pends : Nat
deriving DecidableEq

/-- `Task::poll`: `none` models `Poll::Ready(())`, `some t'` models
`Poll::Pending` with the future's internal state advanced. -/
def STask.poll (t : STask) : Option STask :=
  if t.pends = 0 then none else some { t with pends := t.pends - 1 }

/-- `SimpleExecutor` state: the `task_queue` `VecDeque`, front first. -/
structure SimpleExecutor where
  task_queue : List STask
deriving DecidableEq

/-- `SimpleExecutor::new`. -/
def SimpleExecutor.new : SimpleExecutor := ⟨[]⟩

/-- `SimpleExecutor::spawn`: `push_back`. -/
def SimpleExecutor.spawn (e : SimpleExecutor) (t : STask) : SimpleExecutor :=
  ⟨e.task_queue ++ [t]⟩

/-- Termination measure for the run loop. -/
def sumPends (q : List STask) : Nat := (q.map (fun t => t.pends + 1)).sum

/-- The `SimpleExecutor::run` loop, instrumented to record the order in
which tasks complete: `pop_front` the head, poll it once, discard it on
`Ready`, `push_back` on `Pending`. -/
def runQueue : List STask → List Nat
  | [] => []
  | t :: rest =>
    match h : t.poll with
    | none => t.id :: runQueue rest
    | some t' => runQueue (rest ++ [t'])
termination_by q => sumPends q
decreasing_by
  · simp [sumPends]
  · unfold STask.poll at h
    split at h
    · cases h
    · cases h
      simp [sumPends, List.map_append]
      omega

/-- `SimpleExecutor::run` on the executor state. -/
def SimpleExecutor.run (e : SimpleExecutor) : List Nat :=
  runQueue e.task_queue

/-- C9: tasks A, B, C spawned in that order, each reporting `Pending`
exactly once before completing, complete in the order A, B, C — the run
loop pops the head, discards on completion and requeues at the tail on
pending, so polls stay in arrival order. -/
theorem runQueue_cons_ready (t : STask) (rest : List STask)
    (h : t.pends = 0) : runQueue (t :: rest) = t.id :: runQueue rest := by
  rw [runQueue]
  split
  · rfl
  · rename_i t' heq
    rw [STask.poll, if_pos h] at heq
    cases heq

theorem runQueue_cons_pending (t : STask) (rest : List STask)
    (h : ¬ t.pends = 0) :
    runQueue (t :: rest) = runQueue (rest ++ [⟨t.id, t.pends - 1⟩]) := by
  rw [runQueue]
  split
  · rename_i heq
    rw [STask.poll, if_neg h] at heq
    cases heq
  · rename_i t' heq
    rw [STask.poll, if_neg h] at heq
    cases heq
    rfl

theorem executor_fifo_order (a b c : Nat) :
    (((SimpleExecutor.new.spawn ⟨a, 1⟩).spawn ⟨b, 1⟩).spawn ⟨c, 1⟩).run
      = [a, b, c] := by
  show runQueue [⟨a, 1⟩, ⟨b, 1⟩, ⟨c, 1⟩] = [a, b, c]
  rw [runQueue_cons_pending _ _ Nat.one_ne_zero]
  show runQueue [⟨b, 1⟩, ⟨c, 1⟩, ⟨a, 0⟩] = [a, b, c]
  rw [runQueue_cons_pending _ _ Nat.one_ne_zero]
  show runQueue [⟨c, 1⟩, ⟨a, 0⟩, ⟨b, 0⟩] = [a, b, c]
  rw [runQueue_cons_pending _ _ Nat.one_ne_zero]
  show runQueue [⟨a, 0⟩, ⟨b, 0⟩, ⟨c, 0⟩] = [a, b, c]
  rw [runQueue_cons_ready _ _ rfl, runQueue_cons_ready _ _ rfl,
    runQueue_cons_ready _ _ rfl, runQueue]
